import Mathlib

/-!
Verification development for the `orx-selfref-col` crate: a shallow embedding of
the node storage, the memory reclaim (compaction) subsystem and the checked
index-handle validity model, together with theorems settling the specification
claims about them.

The payload of a node is modelled as `Option α` (`NodeDataLazyClose<T>` stores
`Option<T>`; `some` is an active node, `none` a closed one).  Node addresses are
modelled as positions in the pinned storage: the pinned vector guarantees that a
position's address is stable while the vector grows, so "the address belongs to
the collection's storage" becomes "the position is below the storage length".
-/

namespace OrxSelfRefCol

variable {α : Type}

/-- Shallow embedding of the self referential collection core: the `pinned_vec`
of node payload slots, the active node count `len`, and the memory state counter
`state` (the `MemoryState { id: usize }` held by the memory reclaim policy). -/
structure Col (α : Type) where
  nodes : List (Option α)
  len : Nat
  state : Nat
deriving DecidableEq, Repr

/-- Checked index handle: the node address plus the memory state recorded at
creation time (`NodeIdx { ptr, state }` of `src/references/node_idx.rs`,
equivalently `NodeIndex { collection_key, node_key }` of `src/nodes/index.rs`). -/
structure NodeIdx where
  addr : Nat
  state : Nat
deriving DecidableEq, Repr

/-- Error cases of an invalid node index, from `src/nodes/index_error.rs`. -/
inductive NodeIndexError where
  | RemovedNode
  | WrongCollection
  | ReorganizedCollection
deriving DecidableEq, Repr

/-- Empty collection, as built by `SelfRefCol::new`. -/
def Col.empty : Col α := { nodes := [], len := 0, state := 0 }

/-- Translation of `SelfRefColMut::push_get_ref` (equivalently `CoreCol::push`):
append a fresh active node and increment the active length. -/
def push (c : Col α) (v : α) : Col α :=
  { c with nodes := c.nodes ++ [some v], len := c.len + 1 }

/-- Translation of `SelfRefColMut::close_node_take_data_no_reclaim` (equivalently
`CoreCol::close`): the node must be active, the active length is decremented and
the slot is closed.  Closing an already closed node panics in the source, which
is modelled by returning `none`. -/
def closeAt (c : Col α) (p : Nat) : Option (Col α) :=
  match c.nodes.getD p none with
  | some _ => some { c with nodes := c.nodes.set p none, len := c.len - 1 }
  | none => none

/-- Translation of `CoreCol::close_if_active`: close the node if it is active,
do nothing otherwise. -/
def closeIfActive (c : Col α) (p : Nat) : Col α :=
  match c.nodes.getD p none with
  | some _ => { c with nodes := c.nodes.set p none, len := c.len - 1 }
  | none => c

/-- Translation of `SelfRefColMut::need_to_reclaim_vacant_nodes::<D>` from
`src/memory_reclaim/utilization.rs`; the identical formula appears in
`MemoryReclaimOnThreshold::reclaim_closed_nodes` of `src/memory/on_threshold.rs`:
with `used = storage.len()`, reclaim is needed iff
`used - active_len > used >> D`. -/
def needToReclaim (D : Nat) (c : Col α) : Bool :=
  let used := c.nodes.length
  let allowedVacant := used >>> D
  let numVacant := used - c.len
  decide (numVacant > allowedVacant)

/-- Swap of the contents of two storage positions, as performed by the node move
of the reclaimer (the slot addresses stay, the node contents move). -/
def swapSlots (ns : List (Option α)) (i j : Nat) : List (Option α) :=
  (ns.set i (ns.getD j none)).set j (ns.getD i none)

/-- Fuel-indexed transcription of the two-pointer scan of `reorganize_nodes`
(`src/memory_reclaim/lazy_unidirectional.rs`): `v` is the forward scan position
looking for a vacant (closed) slot, `o` the backward scan position looking for
an active node to move into it.  The scan stops when the two converge.  The fuel
strictly dominates the loop measure and never runs out when the function is
entered through `reorganize`. -/
def passLoopF : Nat → List (Option α) → Nat → Nat → List (Option α)
  | 0, ns, _, _ => ns
  | fuel + 1, ns, v, o =>
    if ns.length ≤ v then ns
    else if o < v then ns
    else
      match ns.getD v none with
      | some _ => passLoopF fuel ns (v + 1) o
      | none =>
        match ns.getD o none with
        | some _ => passLoopF fuel (swapSlots ns v o) (v + 1) (o - 1)
        | none => if o = v then ns else passLoopF fuel ns v (o - 1)

/-- Transcription of `reorganize_nodes`: run the two-pointer scan over the whole
storage, starting the backward scan at the last position. -/
def reorganize (ns : List (Option α)) : List (Option α) :=
  passLoopF (2 * ns.length + 1) ns 0 (ns.length - 1)

/-- Translation of `lazy_unidirectional::reclaim_closed_nodes`: when the storage
is non-empty, reorganize the nodes, advance the memory state (the
`memory_reclaimed` call) and truncate the storage to the active length. -/
def reclaimClosedNodes (c : Col α) : Col α :=
  if c.nodes.isEmpty then c
  else { nodes := (reorganize c.nodes).take c.len, len := c.len, state := c.state + 1 }

/-- Translation of `MemoryReclaimOnThreshold::<D>::reclaim_closed_nodes` from
`src/variants/memory_reclaim.rs`: run the reclaimer iff the vacancy threshold is
exceeded. -/
def reclaimOnThreshold (D : Nat) (c : Col α) : Col α :=
  if needToReclaim D c then reclaimClosedNodes c else c

/-- Translation of `SelfRefColMut::close_node_take_data`: close the node, then
let the `MemoryReclaimOnThreshold<D>` policy decide whether to compact. -/
def closeReclaim (D : Nat) (c : Col α) (p : Nat) : Option (Col α) :=
  (closeAt c p).map (reclaimOnThreshold D)

/-- Translation of the manual trigger `SelfRefCol::reclaim_closed_nodes`, which
runs `MemoryReclaimAlways = MemoryReclaimOnThreshold<32>`. -/
def manualReclaim (c : Col α) : Col α := reclaimOnThreshold 32 c

/-- Translation of `SelfRefCol::clear` (`src/selfref_col.rs`): reset the ends,
clear the pinned vec, zero the length; the memory reclaim policy state is left
untouched. -/
def clearCol (c : Col α) : Col α := { nodes := [], len := 0, state := c.state }

/-- Translation of `NodeIdx::is_valid_for` (`src/references/node_idx.rs`) and of
`NodeIndex::is_valid_for_collection` (`src/nodes/index.rs`): memory state match
`&&` contains-address `&&` node active, with Rust's short-circuiting `&&` in
exactly this order. -/
def isValidFor (h : NodeIdx) (c : Col α) : Bool :=
  (h.state == c.state)
    && (decide (h.addr < c.nodes.length)
      && (c.nodes.getD h.addr none).isSome)

/-- Translation of `NodeIndex::invalidity_reason_for_collection`
(`src/nodes/index.rs`): test the memory state first, then containment, then
activeness; `none` when the handle is fully valid. -/
def invalidityReason (h : NodeIdx) (c : Col α) : Option NodeIndexError :=
  if ¬ (h.state == c.state) = true then some .ReorganizedCollection
  else if ¬ h.addr < c.nodes.length then some .WrongCollection
  else if ¬ (c.nodes.getD h.addr none).isSome = true then some .RemovedNode
  else none

/-- Translation of `NodeIndex::data_or_error`: the error of the invalidity
reason, or the node data.  The source dereferences the data with
`.expect("is some when is-valid")`; that panic is modelled by the outer `none`
and proved unreachable. -/
def dataOrError (h : NodeIdx) (c : Col α) : Option (Except NodeIndexError α) :=
  match invalidityReason h c with
  | some e => some (Except.error e)
  | none => (c.nodes.getD h.addr none).map Except.ok

/-- Mutations on the collection that the claims quantify over. -/
inductive Op (α : Type) where
  | push (v : α)
  | close (p : Nat)
  | closeNoReclaim (p : Nat)
  | closeIfActive (p : Nat)
  | reclaim
  | clear

/-- Single mutation step under the `MemoryReclaimOnThreshold<D>` policy; `none`
models a Rust panic (closing an already closed node). -/
def step (D : Nat) (c : Col α) : Op α → Option (Col α)
  | .push v => some (push c v)
  | .close p => closeReclaim D c p
  | .closeNoReclaim p => closeAt c p
  | .closeIfActive p => some (closeIfActive c p)
  | .reclaim => some (manualReclaim c)
  | .clear => some (clearCol c)

/-- Run a sequence of operations from a starting collection. -/
def run (D : Nat) (ops : List (Op α)) (c : Col α) : Option (Col α) :=
  match ops with
  | [] => some c
  | op :: rest =>
    match step D c op with
    | some c1 => run D rest c1
    | none => none

/-- Number of active nodes actually present in the storage. -/
def countActive (ns : List (Option α)) : Nat := ns.countP (fun s => s.isSome)

/-- Conservation invariant of the core collection: the active length equals the
number of storage slots whose payload is present. -/
def Invariant (c : Col α) : Prop := c.len = countActive c.nodes

/-!
Embedding of `RefsArrayLeftMost<N, V>` (`src/references/array_left_most.rs`):
a bounded array of `N` optional node pointers together with the number `len` of
references held, maintaining the invariant that all `Some` references sit to the
left of all `None` slots.  Node pointers are modelled as `Nat` addresses.
-/

/-- A constant number of left-aligned node references
(`RefsArrayLeftMost { array: [Option<NodePtr>; N], len: usize }`). -/
structure RefsArrayLeftMost (N : Nat) where
  array : List (Option Nat)
  len : Nat
deriving DecidableEq, Repr

/-- Translation of `Refs::empty` for `RefsArrayLeftMost`: `N` empty slots. -/
def refsEmpty (N : Nat) : RefsArrayLeftMost N :=
  { array := List.replicate N none, len := 0 }

/-- Translation of `Refs::clear`: take the first `len` slots out, zero the
length (`self.array.iter_mut().take(self.len).for_each(|x| _ = x.take())`). -/
def clearFirstSlots : Nat → List (Option Nat) → List (Option Nat)
  | 0, l => l
  | _ + 1, [] => []
  | n + 1, _ :: t => none :: clearFirstSlots n t

/-- Translation of `Refs::clear` for `RefsArrayLeftMost`. -/
def refsClear {N : Nat} (s : RefsArrayLeftMost N) : RefsArrayLeftMost N :=
  { array := clearFirstSlots s.len s.array, len := 0 }

/-- Translation of `RefsArrayLeftMost::has_room`: `self.len < N`. -/
def hasRoom {N : Nat} (s : RefsArrayLeftMost N) : Bool := decide (s.len < N)

/-- Translation of `RefsArrayLeftMost::push`: `assert_has_room_for::<1>` checks
`len + 1 <= N` and panics otherwise (modelled as `none`); then the slot at `len`
is filled and the length incremented. -/
def refsPush {N : Nat} (s : RefsArrayLeftMost N) (p : Nat) :
    Option (RefsArrayLeftMost N) :=
  if s.len + 1 ≤ N then
    some { array := s.array.set s.len (some p), len := s.len + 1 }
  else none

/-- Shift loop of `Refs::remove_at`: `for i in (ref_idx + 1)..len { array[i - 1]
= array[i].take(); }`, transcribed with the iteration count as an argument;
`j` is the loop variable, each step moves the value at `j` one slot left and
empties slot `j`. -/
def shiftSteps : List (Option Nat) → Nat → Nat → List (Option Nat)
  | arr, _, 0 => arr
  | arr, j, count + 1 =>
    shiftSteps ((arr.set (j - 1) (arr.getD j none)).set j none) (j + 1) count

/-- Translation of `Refs::remove_at` for `RefsArrayLeftMost`: empty the slot,
shift every later reference one slot to the left, decrement the length. -/
def refsRemoveAt {N : Nat} (s : RefsArrayLeftMost N) (refIdx : Nat) :
    RefsArrayLeftMost N :=
  { array := shiftSteps (s.array.set refIdx none) (refIdx + 1) (s.len - (refIdx + 1))
    len := s.len - 1 }

/-- Translation of `Refs::remove` for `RefsArrayLeftMost`: find the first slot
holding the given pointer over the whole backing array, remove at that slot and
return it; `none` when the pointer is absent. -/
def refsRemove {N : Nat} (s : RefsArrayLeftMost N) (p : Nat) :
    RefsArrayLeftMost N × Option Nat :=
  match s.array.findIdx? (fun x => x == some p) with
  | some refIdx => (refsRemoveAt s refIdx, some refIdx)
  | none => (s, none)

/-- Shift loop of `RefsArrayLeftMost::insert`: `for q in (position..len).rev()
{ array[q + 1] = array[q].clone(); }`, transcribed with the iteration count as
an argument, iterating downwards from `position + count - 1`. -/
def insertShift : List (Option Nat) → Nat → Nat → List (Option Nat)
  | arr, _, 0 => arr
  | arr, position, count + 1 =>
    insertShift (arr.set (position + count + 1) (arr.getD (position + count) none))
      position count

/-- Translation of `RefsArrayLeftMost::insert`: shift the references from
`position` onwards one slot to the right, write the new reference at `position`
and increment the length. -/
def refsInsert {N : Nat} (s : RefsArrayLeftMost N) (position : Nat) (p : Nat) :
    RefsArrayLeftMost N :=
  { array := (insertShift s.array position (s.len - position)).set position (some p)
    len := s.len + 1 }

/-- Left-aligned well-formedness of a `RefsArrayLeftMost`: the backing array has
exactly `N` slots, at most `N` references are held, exactly the first `len`
slots hold `Some` references and every later slot is `None`. -/
def LeftAligned {N : Nat} (s : RefsArrayLeftMost N) : Prop :=
  s.array.length = N ∧ s.len ≤ N ∧
    (∀ i, i < s.len → (s.array.getD i none).isSome = true) ∧
    (∀ i, s.len ≤ i → s.array.getD i none = none)

/-!
Helper lemmas about list slots.
-/

variable {β : Type}

lemma getD_set_self (l : List (Option β)) (i : Nat) (x : Option β) (h : i < l.length) :
    (l.set i x).getD i none = x := by
  simp [List.getD_eq_getElem?_getD, List.getElem?_set, h]

lemma getD_set_ne (l : List (Option β)) {i j : Nat} (x : Option β) (h : i ≠ j) :
    (l.set i x).getD j none = l.getD j none := by
  simp [List.getD_eq_getElem?_getD, List.getElem?_set, h]

lemma getD_isSome_lt (l : List (Option β)) (i : Nat)
    (h : (l.getD i none).isSome = true) : i < l.length := by
  by_contra hc
  push_neg at hc
  rw [List.getD_eq_getElem?_getD, List.getElem?_eq_none hc] at h
  simp at h

lemma countActive_set (ns : List (Option β)) (i : Nat) (x : Option β) (h : i < ns.length) :
    countActive (ns.set i x) + (if (ns.getD i none).isSome then 1 else 0)
      = countActive ns + (if x.isSome then 1 else 0) := by
  induction ns generalizing i with
  | nil => simp at h
  | cons a t ih =>
    cases i with
    | zero =>
      simp [countActive, List.countP_cons]
      omega
    | succ n =>
      have hn : n < t.length := by simpa using h
      have := ih n hn
      simp only [List.set_cons_succ, countActive, List.countP_cons,
        List.getD_cons_succ] at this ⊢
      omega

lemma length_swapSlots (ns : List (Option β)) (i j : Nat) :
    (swapSlots ns i j).length = ns.length := by
  simp [swapSlots]

lemma getD_swapSlots_fst (ns : List (Option β)) {i j : Nat} (hi : i < ns.length)
    (hij : i ≠ j) : (swapSlots ns i j).getD i none = ns.getD j none := by
  rw [swapSlots, getD_set_ne _ _ (Ne.symm hij), getD_set_self _ _ _ hi]

lemma getD_swapSlots_snd (ns : List (Option β)) {i j : Nat} (hj : j < ns.length) :
    (swapSlots ns i j).getD j none = ns.getD i none := by
  rw [swapSlots]
  exact getD_set_self _ _ _ (by simpa using hj)

lemma getD_swapSlots_other (ns : List (Option β)) {i j k : Nat} (hik : i ≠ k)
    (hjk : j ≠ k) : (swapSlots ns i j).getD k none = ns.getD k none := by
  rw [swapSlots, getD_set_ne _ _ hjk, getD_set_ne _ _ hik]

lemma countActive_swapSlots (ns : List (Option β)) {i j : Nat}
    (hi : i < ns.length) (hj : j < ns.length) :
    countActive (swapSlots ns i j) = countActive ns := by
  have h1 := countActive_set ns i (ns.getD j none) hi
  have h2 := countActive_set (ns.set i (ns.getD j none)) j (ns.getD i none)
    (by simpa using hj)
  have h3 : (ns.set i (ns.getD j none)).getD j none = ns.getD j none := by
    rcases eq_or_ne i j with rfl | hne
    · exact getD_set_self _ _ _ hi
    · exact getD_set_ne _ _ hne
  rw [h3] at h2
  exact Nat.add_right_cancel (h2.trans h1)

/-- Property that all `some` slots of the storage sit before all `none` slots. -/
def SomesLeftmost (ns : List (Option β)) : Prop :=
  ∀ i j : Nat, i ≤ j → j < ns.length → (ns.getD j none).isSome = true →
    (ns.getD i none).isSome = true

lemma passLoopF_spec (fuel : Nat) :
    ∀ (ns : List (Option α)) (v o : Nat),
      ns.length - v + o + 1 ≤ fuel → o < ns.length →
      (∀ i, i < v → (ns.getD i none).isSome = true) →
      (∀ i, o < i → i < ns.length → ns.getD i none = none) →
      (passLoopF fuel ns v o).length = ns.length ∧
        countActive (passLoopF fuel ns v o) = countActive ns ∧
        SomesLeftmost (passLoopF fuel ns v o) := by
  induction fuel with
  | zero =>
    intro ns v o hf ho h1 h2
    omega
  | succ f ih =>
    intro ns v o hf ho h1 h2
    rw [passLoopF]
    by_cases hv : ns.length ≤ v
    · simp only [hv, if_true]
      refine ⟨trivial, trivial, fun i j hij hj _ => h1 i (by omega)⟩
    · simp only [hv, if_false]
      by_cases hov : o < v
      · simp only [hov, if_true]
        refine ⟨trivial, trivial, fun i j hij hj hsome => ?_⟩
        have hjo : j ≤ o := by
          by_contra hc
          push_neg at hc
          rw [h2 j hc hj] at hsome
          simp at hsome
        exact h1 i (by omega)
      · simp only [hov, if_false]
        cases hvslot : ns.getD v none with
        | some a =>
          have h1' : ∀ i, i < v + 1 → (ns.getD i none).isSome = true := by
            intro i hi
            rcases Nat.lt_or_ge i v with hlt | hge
            · exact h1 i hlt
            · have : i = v := by omega
              rw [this, hvslot]
              rfl
          exact ih ns (v + 1) o (by omega) ho h1' h2
        | none =>
          cases hoslot : ns.getD o none with
          | some b =>
            have hvo : v ≠ o := by
              intro hc
              rw [hc, hoslot] at hvslot
              exact Option.noConfusion hvslot
            have hvlt : v < ns.length := by omega
            have hvo' : v < o := by omega
            have hlen := length_swapSlots ns v o
            have h1' : ∀ i, i < v + 1 → ((swapSlots ns v o).getD i none).isSome = true := by
              intro i hi
              rcases Nat.lt_or_ge i v with hlt | hge
              · rw [getD_swapSlots_other ns (by omega) (by omega)]
                exact h1 i hlt
              · have : i = v := by omega
                rw [this, getD_swapSlots_fst ns hvlt hvo, hoslot]
                rfl
            have h2' : ∀ i, o - 1 < i → i < (swapSlots ns v o).length →
                (swapSlots ns v o).getD i none = none := by
              intro i hi hilen
              rw [hlen] at hilen
              rcases Nat.lt_or_ge o i with hlt | hge
              · rw [getD_swapSlots_other ns (by omega) (by omega)]
                exact h2 i hlt hilen
              · have : i = o := by omega
                rw [this, getD_swapSlots_snd ns ho, hvslot]
            have := ih (swapSlots ns v o) (v + 1) (o - 1)
              (by rw [hlen]; omega) (by rw [hlen]; omega) h1' (by simpa [hlen] using h2')
            refine ⟨this.1.trans hlen, this.2.1.trans (countActive_swapSlots ns hvlt ho), this.2.2⟩
          | none =>
            by_cases hoveq : o = v
            · simp only [hoveq, if_true]
              refine ⟨trivial, trivial, fun i j hij hj hsome => ?_⟩
              have hjo : j ≤ o := by
                by_contra hc
                push_neg at hc
                rw [h2 j hc hj] at hsome
                simp at hsome
              have hjv : j ≠ v := by
                intro hc
                rw [hc, hvslot] at hsome
                exact Bool.noConfusion hsome
              exact h1 i (by omega)
            · simp only [hoveq, if_false]
              have hoge : v < o := by omega
              have h2' : ∀ i, o - 1 < i → i < ns.length → ns.getD i none = none := by
                intro i hi hilen
                rcases Nat.lt_or_ge o i with hlt | hge
                · exact h2 i hlt hilen
                · have : i = o := by omega
                  rw [this, hoslot]
              exact ih ns v (o - 1) (by omega) (by omega) h1 h2'

lemma reorganize_nil : reorganize ([] : List (Option β)) = [] := rfl

lemma reorganize_spec (ns : List (Option α)) :
    (reorganize ns).length = ns.length ∧
      countActive (reorganize ns) = countActive ns ∧
      SomesLeftmost (reorganize ns) := by
  rcases eq_or_ne ns [] with rfl | hne
  · refine ⟨rfl, rfl, ?_⟩
    intro i j hij hj hsome
    rw [reorganize_nil] at hj
    simp at hj
  · have hlen : 0 < ns.length := List.length_pos.mpr hne
    exact passLoopF_spec (2 * ns.length + 1) ns 0 (ns.length - 1)
      (by omega) (by omega) (fun i hi => absurd hi (by omega))
      (fun i hi hilen => absurd hilen (by omega))

lemma getD_eq_some_mem (l : List (Option β)) (p : Nat) (a : β)
    (h : l.getD p none = some a) : some a ∈ l := by
  rw [List.getD_eq_getElem?_getD] at h
  cases hget : l[p]? with
  | none => rw [hget] at h; simp at h
  | some x =>
    rw [hget] at h
    simp only [Option.getD_some] at h
    rw [h] at hget
    exact List.mem_iff_getElem?.mpr ⟨p, hget⟩

lemma somesLeftmost_lt_count (r : List (Option β)) (h : SomesLeftmost r) :
    ∀ i, i < countActive r → (r.getD i none).isSome = true := by
  induction r with
  | nil => intro i hi; simp [countActive] at hi
  | cons x t ih =>
    have ht : SomesLeftmost t := by
      intro i j hij hj hsome
      have := h (i + 1) (j + 1) (by omega) (by simpa using Nat.succ_lt_succ hj)
        (by rwa [List.getD_cons_succ])
      rwa [List.getD_cons_succ] at this
    have hcc : countActive (x :: t) = countActive t + (if x.isSome then 1 else 0) :=
      List.countP_cons _ _ _
    intro i hi
    by_cases hx : x.isSome = true
    · cases i with
      | zero => rw [List.getD_cons_zero]; exact hx
      | succ n =>
        rw [List.getD_cons_succ]
        apply ih ht
        rw [hcc, if_pos hx] at hi
        omega
    · exfalso
      have h0 : countActive t = 0 := by
        by_contra hc
        obtain ⟨a, ha, hsa⟩ := List.countP_pos_iff.mp (Nat.pos_of_ne_zero hc)
        obtain ⟨n, hn⟩ := List.mem_iff_getElem?.mp ha
        have hnlen : n < t.length := by
          by_contra hcc2
          push_neg at hcc2
          rw [List.getElem?_eq_none hcc2] at hn
          exact Option.noConfusion hn
        have hgd : ((x :: t).getD (n + 1) none).isSome = true := by
          rw [List.getD_cons_succ, List.getD_eq_getElem?_getD, hn]
          exact hsa
        have h0' := h 0 (n + 1) (by omega) (by simpa using Nat.succ_lt_succ hnlen) hgd
        rw [List.getD_cons_zero] at h0'
        exact hx h0'
      rw [hcc, if_neg hx, h0] at hi
      omega

lemma countActive_take (r : List (Option β)) (k : Nat) (hk : k ≤ r.length)
    (h : ∀ i, i < k → (r.getD i none).isSome = true) :
    countActive (r.take k) = k := by
  induction r generalizing k with
  | nil =>
    simp only [List.length_nil, Nat.le_zero] at hk
    subst hk
    simp [countActive]
  | cons x t ih =>
    cases k with
    | zero => simp [countActive]
    | succ m =>
      have hx : x.isSome = true := by
        have := h 0 (by omega)
        rwa [List.getD_cons_zero] at this
      have hrec := ih m (by simpa using hk)
        (fun i hi => by
          have := h (i + 1) (by omega)
          rwa [List.getD_cons_succ] at this)
      simp only [List.take_succ_cons, countActive, List.countP_cons, if_pos hx]
      simp only [countActive] at hrec
      omega

lemma reclaimClosedNodes_invariant (c : Col α) (h : Invariant c) :
    Invariant (reclaimClosedNodes c) := by
  rw [reclaimClosedNodes]
  by_cases hemp : c.nodes.isEmpty
  · simpa [hemp] using h
  · simp only [hemp, if_false]
    obtain ⟨hlen, hcount, hleft⟩ := reorganize_spec c.nodes
    have h' : c.len = countActive c.nodes := h
    have hcle : c.len ≤ (reorganize c.nodes).length := by
      rw [hlen, h']
      exact List.countP_le_length _
    have hall : ∀ i, i < c.len → ((reorganize c.nodes).getD i none).isSome = true := by
      intro i hi
      exact somesLeftmost_lt_count _ hleft i (by rw [hcount, ← h']; exact hi)
    show c.len = countActive ((reorganize c.nodes).take c.len)
    rw [countActive_take _ _ hcle hall]

lemma invariant_le_length (c : Col α) (h : Invariant c) : c.len ≤ c.nodes.length := by
  rw [h]
  exact List.countP_le_length _

lemma push_invariant (c : Col α) (v : α) (h : Invariant c) : Invariant (push c v) := by
  have h' : c.len = countActive c.nodes := h
  show c.len + 1 = countActive (c.nodes ++ [some v])
  simp only [countActive, List.countP_append, List.countP_cons, List.countP_nil] at h' ⊢
  simp [h']

lemma closeAt_invariant (c : Col α) (p : Nat) (c' : Col α) (h : Invariant c)
    (hc : closeAt c p = some c') : Invariant c' := by
  unfold closeAt at hc
  cases hslot : c.nodes.getD p none with
  | none =>
    rw [hslot] at hc
    exact Option.noConfusion hc
  | some a =>
    simp only [hslot] at hc
    have hlt : p < c.nodes.length := getD_isSome_lt _ _ (by rw [hslot]; rfl)
    have hset := countActive_set c.nodes p none hlt
    rw [hslot] at hset
    simp only [Option.isSome_some, Option.isSome_none, if_true, Bool.false_eq_true,
      if_false] at hset
    have hpos : 1 ≤ countActive c.nodes :=
      List.countP_pos_iff.mpr ⟨some a, getD_eq_some_mem c.nodes p a hslot, rfl⟩
    have h' : c.len = countActive c.nodes := h
    obtain rfl := Option.some_inj.mp hc
    show c.len - 1 = countActive (c.nodes.set p none)
    omega

lemma closeIfActive_invariant (c : Col α) (p : Nat) (h : Invariant c) :
    Invariant (closeIfActive c p) := by
  unfold closeIfActive
  cases hslot : c.nodes.getD p none with
  | none => exact h
  | some a =>
    refine closeAt_invariant c p _ h ?_
    unfold closeAt
    rw [hslot]

lemma reclaimOnThreshold_invariant (D : Nat) (c : Col α) (h : Invariant c) :
    Invariant (reclaimOnThreshold D c) := by
  unfold reclaimOnThreshold
  by_cases hn : needToReclaim D c
  · simpa [hn] using reclaimClosedNodes_invariant c h
  · simpa [hn] using h

lemma step_invariant (D : Nat) (c c' : Col α) (op : Op α) (h : Invariant c)
    (hs : step D c op = some c') : Invariant c' := by
  cases op with
  | push v =>
    obtain rfl : push c v = c' := Option.some_inj.mp hs
    exact push_invariant c v h
  | close p =>
    simp only [step, closeReclaim] at hs
    cases hc : closeAt c p with
    | none => rw [hc] at hs; exact Option.noConfusion hs
    | some c1 =>
      rw [hc, Option.map_some'] at hs
      obtain rfl : reclaimOnThreshold D c1 = c' := Option.some_inj.mp hs
      exact reclaimOnThreshold_invariant D c1 (closeAt_invariant c p c1 h hc)
  | closeNoReclaim p => exact closeAt_invariant c p c' h hs
  | closeIfActive p =>
    obtain rfl : closeIfActive c p = c' := Option.some_inj.mp hs
    exact closeIfActive_invariant c p h
  | reclaim =>
    obtain rfl : manualReclaim c = c' := Option.some_inj.mp hs
    exact reclaimOnThreshold_invariant 32 c h
  | clear =>
    obtain rfl : clearCol c = c' := Option.some_inj.mp hs
    rfl


lemma run_invariant (D : Nat) (ops : List (Op α)) (c c' : Col α) (h : Invariant c)
    (hr : run D ops c = some c') : Invariant c' := by
  induction ops generalizing c with
  | nil =>
    obtain rfl : c = c' := Option.some_inj.mp hr
    exact h
  | cons op rest ih =>
    unfold run at hr
    cases hs : step D c op with
    | none => rw [hs] at hr; exact Option.noConfusion hr
    | some c1 =>
      rw [hs] at hr
      exact ih c1 (step_invariant D c c1 op h hs) hr

lemma reclaimClosedNodes_state (c : Col α) (h : c.nodes ≠ []) :
    (reclaimClosedNodes c).state = c.state + 1 := by
  rw [reclaimClosedNodes]
  have : c.nodes.isEmpty = false := List.isEmpty_eq_false.mpr h
  simp [this]

lemma needToReclaim_nonempty (D : Nat) (c : Col α) (h : needToReclaim D c = true) :
    c.nodes ≠ [] := by
  intro hc
  rw [needToReclaim, hc] at h
  simp at h

lemma step_state_mono (D : Nat) (c c' : Col α) (op : Op α)
    (hs : step D c op = some c') : c.state ≤ c'.state := by
  cases op with
  | push v => obtain rfl : push c v = c' := Option.some_inj.mp hs; exact le_refl _
  | close p =>
    simp only [step, closeReclaim] at hs
    cases hc : closeAt c p with
    | none => rw [hc] at hs; exact Option.noConfusion hs
    | some c1 =>
      rw [hc] at hs
      obtain rfl : reclaimOnThreshold D c1 = c' := Option.some_inj.mp hs
      have hc1 : c1.state = c.state := by
        unfold closeAt at hc
        cases hslot : c.nodes.getD p none with
        | none => rw [hslot] at hc; exact Option.noConfusion hc
        | some a =>
          rw [hslot] at hc
          obtain rfl := (Option.some_inj.mp hc).symm
          rfl
      rw [reclaimOnThreshold]
      by_cases hn : needToReclaim D c1
      · rw [if_pos hn, reclaimClosedNodes_state c1 (needToReclaim_nonempty D c1 hn), hc1]
        omega
      · rw [if_neg hn, hc1]
  | closeNoReclaim p =>
    simp only [step] at hs
    unfold closeAt at hs
    cases hslot : c.nodes.getD p none with
    | none => rw [hslot] at hs; exact Option.noConfusion hs
    | some a =>
      rw [hslot] at hs
      obtain rfl := (Option.some_inj.mp hs).symm
      exact le_refl _
  | closeIfActive p =>
    obtain rfl : closeIfActive c p = c' := Option.some_inj.mp hs
    unfold closeIfActive
    cases c.nodes.getD p none <;> exact le_refl _
  | reclaim =>
    obtain rfl : manualReclaim c = c' := Option.some_inj.mp hs
    rw [manualReclaim, reclaimOnThreshold]
    by_cases hn : needToReclaim 32 c
    · rw [if_pos hn, reclaimClosedNodes_state c (needToReclaim_nonempty 32 c hn)]
      omega
    · rw [if_neg hn]
  | clear =>
    obtain rfl : clearCol c = c' := Option.some_inj.mp hs
    exact le_refl _

lemma run_state_mono (D : Nat) (ops : List (Op α)) (c c' : Col α)
    (hr : run D ops c = some c') : c.state ≤ c'.state := by
  induction ops generalizing c with
  | nil => obtain rfl : c = c' := Option.some_inj.mp hr; exact le_refl _
  | cons op rest ih =>
    unfold run at hr
    cases hs : step D c op with
    | none => rw [hs] at hr; exact Option.noConfusion hr
    | some c1 => rw [hs] at hr; exact (step_state_mono D c c1 op hs).trans (ih c1 hr)

/-!
Helper lemmas about the reference-container operations.
-/

lemma clearFirstSlots_spec (n : Nat) (l : List (Option Nat)) :
    (clearFirstSlots n l).length = l.length ∧
      (∀ i, i < n → (clearFirstSlots n l).getD i none = none) ∧
      (∀ i, n ≤ i → (clearFirstSlots n l).getD i none = l.getD i none) := by
  induction n generalizing l with
  | zero =>
    refine ⟨rfl, fun i hi => absurd hi (by omega), fun i _ => rfl⟩
  | succ m ih =>
    cases l with
    | nil =>
      refine ⟨rfl, fun i hi => ?_, fun i _ => rfl⟩
      simp [clearFirstSlots, List.getD_nil]
    | cons a t =>
      obtain ⟨hlen, hlt, hge⟩ := ih t
      refine ⟨?_, fun i hi => ?_, fun i hi => ?_⟩
      · simp [clearFirstSlots, hlen]
      · cases i with
        | zero => simp [clearFirstSlots, List.getD_cons_zero]
        | succ k =>
          rw [show clearFirstSlots (m + 1) (a :: t) = none :: clearFirstSlots m t from rfl,
            List.getD_cons_succ]
          exact hlt k (by omega)
      · cases i with
        | zero => omega
        | succ k =>
          rw [show clearFirstSlots (m + 1) (a :: t) = none :: clearFirstSlots m t from rfl,
            List.getD_cons_succ, List.getD_cons_succ]
          exact hge k (by omega)

lemma shiftSteps_spec (count : Nat) :
    ∀ (arr : List (Option Nat)) (j : Nat), 1 ≤ j → j + count ≤ arr.length →
      (shiftSteps arr j count).length = arr.length ∧
        (∀ i, i < j - 1 → (shiftSteps arr j count).getD i none = arr.getD i none) ∧
        (∀ i, j - 1 ≤ i → i + 1 < j + count →
          (shiftSteps arr j count).getD i none = arr.getD (i + 1) none) ∧
        (∀ i, j + count ≤ i → (shiftSteps arr j count).getD i none = arr.getD i none) ∧
        (1 ≤ count → (shiftSteps arr j count).getD (j + count - 1) none = none) := by
  induction count with
  | zero =>
    intro arr j hj hlen
    exact ⟨rfl, fun i _ => rfl, fun i h1 h2 => absurd h2 (by omega), fun i _ => rfl,
      fun hc => absurd hc (by omega)⟩
  | succ m ih =>
    intro arr j hj hlen
    have hjlt : j < arr.length := by omega
    have hj1lt : j - 1 < arr.length := by omega
    set arr1 := (arr.set (j - 1) (arr.getD j none)).set j none with harr1
    have hlen1 : arr1.length = arr.length := by simp [harr1]
    have ha_jm1 : arr1.getD (j - 1) none = arr.getD j none := by
      rw [harr1, getD_set_ne _ _ (by omega), getD_set_self _ _ _ hj1lt]
    have ha_j : arr1.getD j none = none := by
      rw [harr1, getD_set_self _ _ _ (by simpa using hjlt)]
    have ha_other : ∀ i, i ≠ j - 1 → i ≠ j → arr1.getD i none = arr.getD i none := by
      intro i h1 h2
      rw [harr1, getD_set_ne _ _ (Ne.symm h2), getD_set_ne _ _ (Ne.symm h1)]
    have hrec := ih arr1 (j + 1) (by omega) (by omega)
    obtain ⟨rl, r1, r2, r3, r4⟩ := hrec
    have hstep : shiftSteps arr j (m + 1) = shiftSteps arr1 (j + 1) m := rfl
    rw [hstep]
    refine ⟨rl.trans hlen1, fun i hi => ?_, fun i hi1 hi2 => ?_, fun i hi => ?_, fun _ => ?_⟩
    · rw [r1 i (by omega), ha_other i (by omega) (by omega)]
    · rcases Nat.lt_or_ge i j with hlt | hge
      · have hij : i = j - 1 := by omega
        rw [hij, r1 (j - 1) (by omega), ha_jm1]
        congr 1
        omega
      · rw [r2 i (by omega) (by omega), ha_other (i + 1) (by omega) (by omega)]
    · rw [r3 i (by omega), ha_other i (by omega) (by omega)]
    · cases m with
      | zero =>
        have : shiftSteps arr1 (j + 1) 0 = arr1 := rfl
        rw [this]
        have : j + (0 + 1) - 1 = j := by omega
        rw [this]
        exact ha_j
      | succ k =>
        have := r4 (by omega)
        have heq : j + 1 + (k + 1) - 1 = j + (k + 1 + 1) - 1 := by omega
        rwa [heq] at this

lemma insertShift_spec (count : Nat) :
    ∀ (arr : List (Option Nat)) (position : Nat), position + count < arr.length →
      (insertShift arr position count).length = arr.length ∧
        (∀ i, i ≤ position → (insertShift arr position count).getD i none = arr.getD i none) ∧
        (∀ i, position + 1 ≤ i → i ≤ position + count →
          (insertShift arr position count).getD i none = arr.getD (i - 1) none) ∧
        (∀ i, position + count < i →
          (insertShift arr position count).getD i none = arr.getD i none) := by
  induction count with
  | zero =>
    intro arr position hlen
    exact ⟨rfl, fun i _ => rfl, fun i h1 h2 => absurd (h1.trans h2) (by omega),
      fun i _ => rfl⟩
  | succ m ih =>
    intro arr position hlen
    set arr1 := arr.set (position + m + 1) (arr.getD (position + m) none) with harr1
    have hlen1 : arr1.length = arr.length := by simp [harr1]
    have ha_top : arr1.getD (position + m + 1) none = arr.getD (position + m) none := by
      rw [harr1, getD_set_self _ _ _ (by omega)]
    have ha_other : ∀ i, i ≠ position + m + 1 → arr1.getD i none = arr.getD i none := by
      intro i hne
      rw [harr1, getD_set_ne _ _ (Ne.symm hne)]
    have hrec := ih arr1 position (by omega)
    obtain ⟨rl, r1, r2, r3⟩ := hrec
    have hstep : insertShift arr position (m + 1) = insertShift arr1 position m := rfl
    rw [hstep]
    refine ⟨rl.trans hlen1, fun i hi => ?_, fun i hi1 hi2 => ?_, fun i hi => ?_⟩
    · rw [r1 i hi, ha_other i (by omega)]
    · rcases Nat.lt_or_ge (position + m) i with hge | hlt
      · have hieq : i = position + m + 1 := by omega
        rw [hieq, r3 (position + m + 1) (by omega), ha_top]
        congr 1
      · rw [r2 i (by omega) (by omega), ha_other (i - 1) (by omega)]
    · rw [r3 i (by omega), ha_other i (by omega)]

lemma findIdx?_found (q : Option Nat → Bool) :
    ∀ (l : List (Option Nat)) (k i : Nat), List.findIdx? q l k = some i →
      k ≤ i ∧ i - k < l.length ∧ ∃ x, l[i - k]? = some x ∧ q x = true := by
  intro l
  induction l with
  | nil =>
    intro k i hf
    simp [List.findIdx?] at hf
  | cons x t ih =>
    intro k i hf
    rw [List.findIdx?_cons] at hf
    by_cases hx : q x = true
    · rw [if_pos hx] at hf
      obtain rfl : k = i := Option.some_inj.mp hf
      refine ⟨le_refl _, by simp, x, ?_, hx⟩
      simp
    · rw [if_neg hx] at hf
      obtain ⟨hk, hlen, y, hy, hqy⟩ := ih (k + 1) i hf
      refine ⟨by omega, by simp; omega, y, ?_, hqy⟩
      have : i - k = (i - (k + 1)) + 1 := by omega
      rw [this, List.getElem?_cons_succ]
      exact hy

lemma getD_oob (l : List (Option β)) (i : Nat) (h : l.length ≤ i) :
    l.getD i none = none := by
  rw [List.getD_eq_getElem?_getD, List.getElem?_eq_none h]
  rfl

lemma leftAligned_of_checks {N : Nat} (s : RefsArrayLeftMost N)
    (h1 : s.array.length = N) (h2 : s.len ≤ N)
    (h3 : ∀ i, i < s.len → (s.array.getD i none).isSome = true)
    (h4 : ∀ i, i < N → s.len ≤ i → s.array.getD i none = none) : LeftAligned s := by
  refine ⟨h1, h2, h3, fun i hi => ?_⟩
  rcases Nat.lt_or_ge i N with hlt | hge
  · exact h4 i hlt hi
  · exact getD_oob _ _ (by omega)

lemma leftAligned_refsEmpty (N : Nat) : LeftAligned (refsEmpty N) := by
  refine ⟨by simp [refsEmpty], by simp [refsEmpty],
    fun i hi => absurd hi (Nat.not_lt_zero i), fun i _ => ?_⟩
  show (List.replicate N none).getD i none = none
  rw [List.getD_eq_getElem?_getD, List.getElem?_replicate]
  split <;> rfl

lemma leftAligned_refsClear {N : Nat} (s : RefsArrayLeftMost N) (h : LeftAligned s) :
    LeftAligned (refsClear s) := by
  obtain ⟨hlen, hle, hsome, hnone⟩ := h
  obtain ⟨cl, clt, cge⟩ := clearFirstSlots_spec s.len s.array
  refine ⟨cl.trans hlen, Nat.zero_le N,
    fun i hi => absurd hi (Nat.not_lt_zero i), fun i _ => ?_⟩
  show (clearFirstSlots s.len s.array).getD i none = none
  rcases Nat.lt_or_ge i s.len with hlt | hge2
  · exact clt i hlt
  · rw [cge i hge2]
    exact hnone i hge2

lemma leftAligned_refsPush {N : Nat} (s : RefsArrayLeftMost N) (p : Nat)
    (s' : RefsArrayLeftMost N) (h : LeftAligned s) (hp : refsPush s p = some s') :
    LeftAligned s' := by
  obtain ⟨hlen, hle, hsome, hnone⟩ := h
  unfold refsPush at hp
  by_cases hroom : s.len + 1 ≤ N
  · rw [if_pos hroom] at hp
    obtain rfl := Option.some_inj.mp hp
    have hlt : s.len < s.array.length := by omega
    refine ⟨by simpa using hlen, by simpa using hroom, fun i hi => ?_, fun i hi => ?_⟩
    · have hi2 : i < s.len + 1 := hi
      show ((s.array.set s.len (some p)).getD i none).isSome = true
      rcases Nat.lt_or_ge i s.len with h2 | h2
      · rw [getD_set_ne _ _ (by omega)]
        exact hsome i h2
      · have hieq : i = s.len := by omega
        rw [hieq, getD_set_self _ _ _ hlt]
        rfl
    · have hi2 : s.len + 1 ≤ i := hi
      show (s.array.set s.len (some p)).getD i none = none
      rw [getD_set_ne _ _ (by omega)]
      exact hnone i (by omega)
  · rw [if_neg hroom] at hp
    exact Option.noConfusion hp

lemma leftAligned_refsInsert {N : Nat} (s : RefsArrayLeftMost N) (position p : Nat)
    (h : LeftAligned s) (hroom : s.len < N) (hpos : position ≤ s.len) :
    LeftAligned (refsInsert s position p) := by
  obtain ⟨hlen, hle, hsome, hnone⟩ := h
  have hbound : position + (s.len - position) < s.array.length := by omega
  obtain ⟨rl, r1, r2, r3⟩ := insertShift_spec (s.len - position) s.array position hbound
  have hposlt : position < (insertShift s.array position (s.len - position)).length := by
    omega
  refine ⟨by simpa [refsInsert] using rl.trans hlen, by show s.len + 1 ≤ N; omega,
    fun i hi => ?_, fun i hi => ?_⟩
  · have hi2 : i < s.len + 1 := hi
    show (((insertShift s.array position (s.len - position)).set position
      (some p)).getD i none).isSome = true
    rcases eq_or_ne i position with rfl | hne
    · rw [getD_set_self _ _ _ hposlt]
      rfl
    · rw [getD_set_ne _ _ (Ne.symm hne)]
      rcases Nat.lt_or_ge i position with h2 | h2
      · rw [r1 i (by omega)]
        exact hsome i (by omega)
      · rw [r2 i (by omega) (by omega)]
        exact hsome (i - 1) (by omega)
  · have hi2 : s.len + 1 ≤ i := hi
    show ((insertShift s.array position (s.len - position)).set position
      (some p)).getD i none = none
    rw [getD_set_ne _ _ (by omega), r3 i (by omega)]
    exact hnone i (by omega)

lemma refsRemoveAt_spec {N : Nat} (s : RefsArrayLeftMost N) (i : Nat)
    (h : LeftAligned s) (hi : i < s.len) :
    LeftAligned (refsRemoveAt s i) ∧
      (refsRemoveAt s i).len = s.len - 1 ∧
      (∀ j, j < i → (refsRemoveAt s i).array.getD j none = s.array.getD j none) ∧
      (∀ j, i ≤ j → j + 1 < s.len →
        (refsRemoveAt s i).array.getD j none = s.array.getD (j + 1) none) := by
  obtain ⟨hlen, hle, hsome, hnone⟩ := h
  have hilt : i < s.array.length := by omega
  have hlen0 : (s.array.set i none).length = s.array.length := by simp
  obtain ⟨rl, r1, r2, r3, r4⟩ := shiftSteps_spec (s.len - (i + 1)) (s.array.set i none)
    (i + 1) (by omega) (by omega)
  have ha_i : (s.array.set i none).getD i none = none := getD_set_self _ _ _ hilt
  have ha_other : ∀ j, j ≠ i → (s.array.set i none).getD j none = s.array.getD j none :=
    fun j hj => getD_set_ne _ _ (Ne.symm hj)
  have q1 : ∀ j, j < i →
      (shiftSteps (s.array.set i none) (i + 1) (s.len - (i + 1))).getD j none
        = s.array.getD j none := by
    intro j hj
    rw [r1 j (by omega), ha_other j (by omega)]
  have q2 : ∀ j, i ≤ j → j + 1 < s.len →
      (shiftSteps (s.array.set i none) (i + 1) (s.len - (i + 1))).getD j none
        = s.array.getD (j + 1) none := by
    intro j hj hj1
    rw [r2 j (by omega) (by omega), ha_other (j + 1) (by omega)]
  have q3 : (shiftSteps (s.array.set i none) (i + 1) (s.len - (i + 1))).getD
      (s.len - 1) none = none := by
    rcases Nat.lt_or_ge (i + 1) s.len with hlt | hge
    · have := r4 (by omega)
      have heq : i + 1 + (s.len - (i + 1)) - 1 = s.len - 1 := by omega
      rwa [heq] at this
    · have hcount : s.len - (i + 1) = 0 := by omega
      have hieq : i = s.len - 1 := by omega
      rw [hcount]
      show (s.array.set i none).getD (s.len - 1) none = none
      rw [← hieq]
      exact ha_i
  have q4 : ∀ j, s.len ≤ j →
      (shiftSteps (s.array.set i none) (i + 1) (s.len - (i + 1))).getD j none = none := by
    intro j hj
    rw [r3 j (by omega), ha_other j (by omega)]
    exact hnone j hj
  refine ⟨⟨rl.trans (hlen0.trans hlen), by show s.len - 1 ≤ N; omega,
    fun j hj => ?_, fun j hj => ?_⟩, rfl, q1, q2⟩
  · have hj2 : j < s.len - 1 := hj
    show ((shiftSteps (s.array.set i none) (i + 1) (s.len - (i + 1))).getD j none).isSome
      = true
    rcases Nat.lt_or_ge j i with h2 | h2
    · rw [q1 j h2]
      exact hsome j (by omega)
    · rw [q2 j h2 (by omega)]
      exact hsome (j + 1) (by omega)
  · have hj2 : s.len - 1 ≤ j := hj
    show (shiftSteps (s.array.set i none) (i + 1) (s.len - (i + 1))).getD j none = none
    rcases Nat.lt_or_ge j s.len with h2 | h2
    · have : j = s.len - 1 := by omega
      rw [this]
      exact q3
    · exact q4 j h2

lemma leftAligned_refsRemove {N : Nat} (s : RefsArrayLeftMost N) (p : Nat)
    (h : LeftAligned s) : LeftAligned (refsRemove s p).1 := by
  unfold refsRemove
  cases hf : s.array.findIdx? (fun x => x == some p) with
  | none => exact h
  | some i =>
    obtain ⟨_, hlt, x, hx, hqx⟩ := findIdx?_found _ s.array 0 i hf
    simp only [Nat.sub_zero] at hlt hx
    have hxval : x = some p := by simpa using hqx
    have hisome : (s.array.getD i none).isSome = true := by
      rw [List.getD_eq_getElem?_getD, hx, hxval]
      rfl
    have hiln : i < s.len := by
      by_contra hc
      push_neg at hc
      rw [h.2.2.2 i hc] at hisome
      exact Bool.noConfusion hisome
    exact (refsRemoveAt_spec s i h hiln).1

/-- C8: pushing a reference into a bounded array-of-`N` reference container that
already holds `N` references fails loudly with an assertion panic (in particular
for `N = 2` a third push panics), and a successful push never drops or moves any
existing reference: every slot other than the one filled is unchanged and the
new reference lands in the previously empty slot `len`. -/
theorem bounded_refs_push_fails_loudly :
    (∀ (N : Nat) (s : RefsArrayLeftMost N) (p : Nat), N ≤ s.len → refsPush s p = none) ∧
    (∀ (N : Nat) (s : RefsArrayLeftMost N) (p : Nat) (s' : RefsArrayLeftMost N),
      refsPush s p = some s' →
      s'.len = s.len + 1 ∧
        (∀ j, j ≠ s.len → s'.array.getD j none = s.array.getD j none) ∧
        (s.len < s.array.length → s'.array.getD s.len none = some p)) ∧
    refsPush (⟨[some 10, some 20], 2⟩ : RefsArrayLeftMost 2) 30 = none := by
  refine ⟨fun N s p hfull => ?_, fun N s p s' hp => ?_, rfl⟩
  · unfold refsPush
    rw [if_neg (by omega)]
  · unfold refsPush at hp
    by_cases hroom : s.len + 1 ≤ N
    · rw [if_pos hroom] at hp
      obtain rfl := Option.some_inj.mp hp
      refine ⟨rfl, fun j hj => getD_set_ne _ _ (Ne.symm hj), fun hlt => ?_⟩
      exact getD_set_self _ _ _ hlt
    · rw [if_neg hroom] at hp
      exact Option.noConfusion hp

/-- Witness for `bounded_refs_push_fails_loudly`: a bounded array of two
references holding two references rejects a third push. -/
theorem bounded_refs_push_fails_loudly_witness :
    refsPush (⟨[some 1, some 2], 2⟩ : RefsArrayLeftMost 2) 3 = none :=
  bounded_refs_push_fails_loudly.1 2 ⟨[some 1, some 2], 2⟩ 3 (by decide)

/-- C10: `RefsArrayLeftMost<N>` keeps the left-aligned invariant — exactly the
first `len` slots hold `Some` references, all later slots are `None` — under
`empty`, `clear`, `push`, `insert`, `remove_at` and `remove`; moreover
`remove_at i` keeps every earlier reference in place, shifts every later
reference one slot to the left preserving their relative order, and decrements
`len` by one. -/
theorem refs_array_left_aligned_invariant :
    (∀ N : Nat, LeftAligned (refsEmpty N)) ∧
    (∀ (N : Nat) (s : RefsArrayLeftMost N), LeftAligned s → LeftAligned (refsClear s)) ∧
    (∀ (N : Nat) (s : RefsArrayLeftMost N) (p : Nat) (s' : RefsArrayLeftMost N),
      LeftAligned s → refsPush s p = some s' → LeftAligned s') ∧
    (∀ (N : Nat) (s : RefsArrayLeftMost N) (position p : Nat),
      LeftAligned s → s.len < N → position ≤ s.len →
      LeftAligned (refsInsert s position p)) ∧
    (∀ (N : Nat) (s : RefsArrayLeftMost N) (i : Nat), LeftAligned s → i < s.len →
      LeftAligned (refsRemoveAt s i) ∧
        (refsRemoveAt s i).len = s.len - 1 ∧
        (∀ j, j < i → (refsRemoveAt s i).array.getD j none = s.array.getD j none) ∧
        (∀ j, i ≤ j → j + 1 < s.len →
          (refsRemoveAt s i).array.getD j none = s.array.getD (j + 1) none)) ∧
    (∀ (N : Nat) (s : RefsArrayLeftMost N) (p : Nat),
      LeftAligned s → LeftAligned (refsRemove s p).1) := by
  exact ⟨leftAligned_refsEmpty, fun N s h => leftAligned_refsClear s h,
    fun N s p s' h hp => leftAligned_refsPush s p s' h hp,
    fun N s position p h h1 h2 => leftAligned_refsInsert s position p h h1 h2,
    fun N s i h hi => refsRemoveAt_spec s i h hi,
    fun N s p h => leftAligned_refsRemove s p h⟩

/-- Witness for `refs_array_left_aligned_invariant`: removing the middle
reference of a three-reference container of capacity four keeps it left-aligned
and shifts the last reference one slot left. -/
theorem refs_array_left_aligned_witness :
    LeftAligned (refsRemoveAt (⟨[some 1, some 2, some 3, none], 3⟩ : RefsArrayLeftMost 4) 1) ∧
      (refsRemoveAt (⟨[some 1, some 2, some 3, none], 3⟩ : RefsArrayLeftMost 4) 1).len = 3 - 1 ∧
      (∀ j, j < 1 →
        (refsRemoveAt (⟨[some 1, some 2, some 3, none], 3⟩ : RefsArrayLeftMost 4) 1).array.getD j none
          = (⟨[some 1, some 2, some 3, none], 3⟩ : RefsArrayLeftMost 4).array.getD j none) ∧
      (∀ j, 1 ≤ j → j + 1 < 3 →
        (refsRemoveAt (⟨[some 1, some 2, some 3, none], 3⟩ : RefsArrayLeftMost 4) 1).array.getD j none
          = (⟨[some 1, some 2, some 3, none], 3⟩ : RefsArrayLeftMost 4).array.getD (j + 1) none) :=
  refs_array_left_aligned_invariant.2.2.2.2.1 4 ⟨[some 1, some 2, some 3, none], 3⟩ 1
    (leftAligned_of_checks _ (by decide) (by decide) (by decide) (by decide)) (by decide)

/-!
Claim theorems about the collection, the memory reclaim subsystem and the
checked index handles.
-/

/-- Unfolding of the validity check into its three conditions. -/
lemma isValidFor_iff_conditions (h : NodeIdx) (c : Col α) :
    isValidFor h c = true ↔
      (h.state = c.state ∧ h.addr < c.nodes.length ∧
        (c.nodes.getD h.addr none).isSome = true) := by
  unfold isValidFor
  simp [Bool.and_eq_true, beq_iff_eq, decide_eq_true_eq]

/-- C1: for every collection and checked index handle, `is_valid_for` returns
true iff the handle's recorded memory state equals the collection's current
state, the handle's address is contained in the collection's node storage, and
the node at that address is active; the embedding `isValidFor` is literally the
source's short-circuiting conjunction `state == state && (contains && active)`
in that order. -/
theorem nodeIdx_is_valid_for_iff (h : NodeIdx) (c : Col α) :
    isValidFor h c = true ↔
      (h.state = c.state ∧ h.addr < c.nodes.length ∧
        (c.nodes.getD h.addr none).isSome = true) :=
  isValidFor_iff_conditions h c

/-- C2 counterexample: pushing one element and closing it under `OnThreshold(2)`
triggers a compaction pass in which no node moves (the reorganize scan leaves
the single closed slot unchanged), yet the memory state advances from 0 to 1;
and `clear()` leaves the memory state unchanged at 1 instead of advancing it.
Both facts contradict the claim that the counter advances exactly on compactions
that moved a node and on `clear()`. -/
theorem generation_counterexample :
    closeReclaim 2 (push (Col.empty : Col Nat) 7) 0
        = some { nodes := [], len := 0, state := 1 } ∧
      reorganize ([none] : List (Option Nat)) = [none] ∧
      clearCol ({ nodes := [], len := 0, state := 1 } : Col Nat)
        = { nodes := [], len := 0, state := 1 } := by
  refine ⟨by decide, by decide, by decide⟩

/-- C2 amended: the memory state advances exactly once per compaction pass that
actually runs — a close whose post-close vacancy exceeds the threshold, or a
manual reclaim whose threshold check passes — regardless of whether the pass
moved any node; it never advances on pushes, on closes that trigger no
compaction, or on `clear()`. -/
theorem generation_advances_iff_compaction_pass :
    (∀ (c : Col α) (v : α), (push c v).state = c.state) ∧
      (∀ c : Col α, (clearCol c).state = c.state) ∧
      (∀ (c c' : Col α) (p : Nat), closeAt c p = some c' → c'.state = c.state) ∧
      (∀ (c : Col α) (p : Nat), (closeIfActive c p).state = c.state) ∧
      (∀ (D : Nat) (c c1 : Col α) (p : Nat), closeAt c p = some c1 →
        needToReclaim D c1 = false → closeReclaim D c p = some c1) ∧
      (∀ (D : Nat) (c c1 : Col α) (p : Nat), closeAt c p = some c1 →
        needToReclaim D c1 = true →
        closeReclaim D c p = some (reclaimClosedNodes c1) ∧
          (reclaimClosedNodes c1).state = c1.state + 1) ∧
      (∀ c : Col α, needToReclaim 32 c = true →
        (manualReclaim c).state = c.state + 1) ∧
      (∀ c : Col α, needToReclaim 32 c = false → manualReclaim c = c) := by
  refine ⟨fun c v => rfl, fun c => rfl, fun c c' p hc => ?_, fun c p => ?_,
    fun D c c1 p hc hn => ?_, fun D c c1 p hc hn => ?_, fun c hn => ?_, fun c hn => ?_⟩
  · unfold closeAt at hc
    cases hslot : c.nodes.getD p none with
    | none => rw [hslot] at hc; exact Option.noConfusion hc
    | some a =>
      rw [hslot] at hc
      obtain rfl := (Option.some_inj.mp hc).symm
      rfl
  · unfold closeIfActive
    cases c.nodes.getD p none <;> rfl
  · rw [closeReclaim, hc, Option.map_some', reclaimOnThreshold, if_neg (by simp [hn])]
  · refine ⟨by rw [closeReclaim, hc, Option.map_some', reclaimOnThreshold, if_pos hn], ?_⟩
    exact reclaimClosedNodes_state c1 (needToReclaim_nonempty D c1 hn)
  · rw [manualReclaim, reclaimOnThreshold, if_pos hn]
    exact reclaimClosedNodes_state c (needToReclaim_nonempty 32 c hn)
  · rw [manualReclaim, reclaimOnThreshold, if_neg (by simp [hn])]

/-- Witness for `generation_advances_iff_compaction_pass`: the close of the only
element of a one-element collection exceeds the `D = 2` threshold and the state
advances by exactly one. -/
theorem generation_advances_witness :
    closeReclaim 2 (push (Col.empty : Col Nat) 7) 0
        = some (reclaimClosedNodes ({ nodes := [none], len := 0, state := 0 } : Col Nat)) ∧
      (reclaimClosedNodes ({ nodes := [none], len := 0, state := 0 } : Col Nat)).state
        = 0 + 1 :=
  generation_advances_iff_compaction_pass.2.2.2.2.2.1 2 (push (Col.empty : Col Nat) 7)
    { nodes := [none], len := 0, state := 0 } 0 (by decide) (by decide)

/-- C3: under `OnThreshold(D)`, a close computes `vacant = used - len` on the
post-close collection and runs the compaction iff `vacant > used >> D`;
concretely with `D = 2`, after pushing four elements the first close leaves one
vacant slot (`1 > 4 >> 2 = 1` fails, no compaction, storage length stays 4 and
the state stays 0) and the second close leaves two (`2 > 1` holds, compaction
runs, the storage truncates to the two active nodes and the state advances). -/
theorem onThreshold_close_compacts_iff :
    (∀ (D : Nat) (c c1 : Col α) (p : Nat), closeAt c p = some c1 →
      (c1.nodes.length - c1.len > c1.nodes.length >>> D →
          closeReclaim D c p = some (reclaimClosedNodes c1)) ∧
        (¬ c1.nodes.length - c1.len > c1.nodes.length >>> D →
          closeReclaim D c p = some c1)) ∧
      run 2 [Op.push 1, Op.push 2, Op.push 3, Op.push 4, Op.close 0] (Col.empty : Col Nat)
        = some { nodes := [none, some 2, some 3, some 4], len := 3, state := 0 } ∧
      run 2 [Op.push 1, Op.push 2, Op.push 3, Op.push 4, Op.close 0, Op.close 1]
          (Col.empty : Col Nat)
        = some { nodes := [some 4, some 3], len := 2, state := 1 } := by
  refine ⟨fun D c c1 p hc => ⟨fun hgt => ?_, fun hle => ?_⟩, by decide, by decide⟩
  · have hn : needToReclaim D c1 = true := by
      unfold needToReclaim
      simpa using hgt
    rw [closeReclaim, hc, Option.map_some', reclaimOnThreshold, if_pos hn]
  · have hn : needToReclaim D c1 = false := by
      unfold needToReclaim
      simpa using hle
    rw [closeReclaim, hc, Option.map_some', reclaimOnThreshold, if_neg (by simp [hn])]

/-- Witness for `onThreshold_close_compacts_iff`: the second close of Scenario B
satisfies the threshold inequality and triggers the compaction. -/
theorem onThreshold_close_compacts_witness :
    closeReclaim 2 ({ nodes := [none, some 2, some 3, some 4], len := 3, state := 0 } : Col Nat) 1
      = some (reclaimClosedNodes
          ({ nodes := [none, none, some 3, some 4], len := 2, state := 0 } : Col Nat)) :=
  (onThreshold_close_compacts_iff.1 2
      { nodes := [none, some 2, some 3, some 4], len := 3, state := 0 }
      { nodes := [none, none, some 3, some 4], len := 2, state := 0 } 1
      (by decide)).1 (by decide)

/-- C4 counterexample: with `D = 0`, a storage of two used slots and one vacancy
fails the threshold check, so a close that leaves a vacant node triggers no
compaction — the storage keeps its hole and the state stays 0 — contradicting
the claim that compaction runs as soon as any vacancy exists. -/
theorem onThreshold_zero_counterexample :
    needToReclaim 0 ({ nodes := [none, some 5], len := 1, state := 0 } : Col Nat) = false ∧
      closeReclaim 0 ({ nodes := [some 4, some 5], len := 2, state := 0 } : Col Nat) 0
        = some { nodes := [none, some 5], len := 1, state := 0 } := by
  refine ⟨by decide, by decide⟩

/-- C4 amended: under `OnThreshold(0)` the check `vacant > used >> 0 = used` can
never hold because `vacant = used - len ≤ used`, so automatic compaction never
runs: `D = 0` behaves like the `Never` policy, exactly as the code's own
documentation states. -/
theorem onThreshold_zero_never_reclaims (c : Col α) :
    needToReclaim 0 c = false ∧ reclaimOnThreshold 0 c = c := by
  have h : needToReclaim 0 c = false := by
    unfold needToReclaim
    simp only [Nat.shiftRight_zero, decide_eq_false_iff_not, not_lt]
    omega
  exact ⟨h, by rw [reclaimOnThreshold, if_neg (by simp [h])]⟩

/-- C5: once a compaction pass that moves at least one node runs (a pass that
moves a node changes the storage, so `reorganize c.nodes ≠ c.nodes` renders
"at least one node was actually moved"), every index handle created strictly
before it — its recorded state is at most the pre-compaction state — reports
`is_valid_for = false` for the collection from then on, after any further
sequence of operations, even though the node it referenced may still be
present. -/
theorem handles_invalid_after_compaction (D : Nat) (h : NodeIdx) (c c' : Col α)
    (ops : List (Op α)) (hstate : h.state ≤ c.state)
    (hmoved : reorganize c.nodes ≠ c.nodes)
    (hrun : run D ops (reclaimClosedNodes c) = some c') :
    isValidFor h c' = false := by
  have hne : c.nodes ≠ [] := by
    intro hc
    rw [hc, reorganize_nil] at hmoved
    exact hmoved rfl
  have h1 : (reclaimClosedNodes c).state = c.state + 1 := reclaimClosedNodes_state c hne
  have h2 : (reclaimClosedNodes c).state ≤ c'.state := run_state_mono D ops _ c' hrun
  have hne2 : h.state ≠ c'.state := by omega
  have hbeq : (h.state == c'.state) = false := by
    simpa using hne2
  rw [isValidFor, hbeq, Bool.false_and]

/-- Witness for `handles_invalid_after_compaction`: the compaction of
`[none, some 5]` moves the active node into the front slot; a handle stamped
with the old state 0 is invalid afterwards although node 5 is still present. -/
theorem handles_invalid_after_compaction_witness :
    isValidFor ⟨0, 0⟩ ({ nodes := [some 5], len := 1, state := 1 } : Col Nat) = false :=
  handles_invalid_after_compaction 2 ⟨0, 0⟩
    { nodes := [none, some 5], len := 1, state := 0 }
    { nodes := [some 5], len := 1, state := 1 } [] (by decide) (by decide) (by decide)

/-- C6: the invalidity-reason query is total and discriminates the failed
validity condition in the order of the checks — state mismatch yields
`ReorganizedCollection`, an address outside the storage yields
`WrongCollection`, a closed node yields `RemovedNode`, and a fully valid handle
yields `none`; `data_or_error` never panics and returns `Ok` of the data on a
valid handle; and a handle taken before a compaction that runs reports
`ReorganizedCollection` afterwards. -/
theorem invalidity_reason_discriminates :
    (∀ (h : NodeIdx) (c : Col α), invalidityReason h c = none ↔ isValidFor h c = true) ∧
      (∀ (h : NodeIdx) (c : Col α), h.state ≠ c.state →
        invalidityReason h c = some NodeIndexError.ReorganizedCollection) ∧
      (∀ (h : NodeIdx) (c : Col α), h.state = c.state → c.nodes.length ≤ h.addr →
        invalidityReason h c = some NodeIndexError.WrongCollection) ∧
      (∀ (h : NodeIdx) (c : Col α), h.state = c.state → h.addr < c.nodes.length →
        c.nodes.getD h.addr none = none →
        invalidityReason h c = some NodeIndexError.RemovedNode) ∧
      (∀ (h : NodeIdx) (c : Col α), dataOrError h c ≠ none) ∧
      (∀ (h : NodeIdx) (c : Col α), invalidityReason h c = none →
        ∃ v, c.nodes.getD h.addr none = some v ∧ dataOrError h c = some (Except.ok v)) ∧
      (∀ (h : NodeIdx) (c : Col α), h.state ≤ c.state → c.nodes ≠ [] →
        invalidityReason h (reclaimClosedNodes c)
          = some NodeIndexError.ReorganizedCollection) := by
  have hvalid : ∀ (h : NodeIdx) (c : Col α), invalidityReason h c = none →
      h.state = c.state ∧ h.addr < c.nodes.length ∧
        (c.nodes.getD h.addr none).isSome = true := by
    intro h c hr
    unfold invalidityReason at hr
    by_cases h1 : (h.state == c.state) = true
    · rw [if_neg (not_not_intro h1)] at hr
      by_cases h2 : h.addr < c.nodes.length
      · rw [if_neg (not_not_intro h2)] at hr
        by_cases h3 : (c.nodes.getD h.addr none).isSome = true
        · exact ⟨by simpa using h1, h2, h3⟩
        · rw [if_pos h3] at hr
          exact Option.noConfusion hr
      · rw [if_pos h2] at hr
        exact Option.noConfusion hr
    · rw [if_pos h1] at hr
      exact Option.noConfusion hr
  refine ⟨fun h c => ?_, fun h c hne => ?_, fun h c hs hlen => ?_,
    fun h c hs hlt hclosed => ?_, fun h c => ?_, fun h c hr => ?_, fun h c hs hne => ?_⟩
  · constructor
    · intro hr
      obtain ⟨h1, h2, h3⟩ := hvalid h c hr
      rw [isValidFor_iff_conditions]
      exact ⟨h1, h2, h3⟩
    · intro hv
      rw [isValidFor_iff_conditions] at hv
      obtain ⟨h1, h2, h3⟩ := hv
      unfold invalidityReason
      rw [if_neg (not_not_intro (show (h.state == c.state) = true by simp [h1])),
        if_neg (not_not_intro h2), if_neg (not_not_intro h3)]
  · unfold invalidityReason
    rw [if_pos (by simp [hne])]
  · unfold invalidityReason
    rw [if_neg (by simp [hs]), if_pos (by omega)]
  · unfold invalidityReason
    rw [if_neg (not_not_intro (show (h.state == c.state) = true by simp [hs])),
      if_neg (not_not_intro hlt),
      if_pos (show ¬ (c.nodes.getD h.addr none).isSome = true by rw [hclosed]; simp)]
  · unfold dataOrError
    cases hr : invalidityReason h c with
    | some e => simp
    | none =>
      obtain ⟨_, _, h3⟩ := hvalid h c hr
      obtain ⟨v, hv⟩ := Option.isSome_iff_exists.mp h3
      rw [hv]
      simp
  · obtain ⟨_, _, h3⟩ := hvalid h c hr
    obtain ⟨v, hv⟩ := Option.isSome_iff_exists.mp h3
    refine ⟨v, hv, ?_⟩
    unfold dataOrError
    rw [hr, hv]
    rfl
  · have hstate := reclaimClosedNodes_state c hne
    have hneq : h.state ≠ (reclaimClosedNodes c).state := by omega
    unfold invalidityReason
    rw [if_pos (by simp [hneq])]

/-- Witness for `invalidity_reason_discriminates`: a handle stamped with state 0
reports `ReorganizedCollection` after the compaction of a two-slot storage. -/
theorem invalidity_reason_discriminates_witness :
    invalidityReason ⟨0, 0⟩
        (reclaimClosedNodes ({ nodes := [none, some 5], len := 1, state := 0 } : Col Nat))
      = some NodeIndexError.ReorganizedCollection :=
  invalidity_reason_discriminates.2.2.2.2.2.2 ⟨0, 0⟩
    { nodes := [none, some 5], len := 1, state := 0 } (by decide) (by decide)

/-- C7: along every sequence of push, close, close-if-active, compaction and
clear operations started from the empty collection, the active count equals the
number of storage slots whose payload is present, and the storage length is at
least the active count. -/
theorem active_count_conservation (D : Nat) (ops : List (Op α)) (c' : Col α)
    (hr : run D ops Col.empty = some c') :
    c'.len = countActive c'.nodes ∧ c'.len ≤ c'.nodes.length := by
  have hinv : Invariant c' := run_invariant D ops Col.empty c' rfl hr
  exact ⟨hinv, invariant_le_length c' hinv⟩

/-- Witness for `active_count_conservation`: the Scenario B run ends with two
active nodes out of two stored. -/
theorem active_count_conservation_witness :
    ({ nodes := [some 4, some 3], len := 2, state := 1 } : Col Nat).len
        = countActive ({ nodes := [some 4, some 3], len := 2, state := 1 } : Col Nat).nodes ∧
      ({ nodes := [some 4, some 3], len := 2, state := 1 } : Col Nat).len
        ≤ ({ nodes := [some 4, some 3], len := 2, state := 1 } : Col Nat).nodes.length :=
  active_count_conservation 2 [Op.push 1, Op.push 2, Op.push 3, Op.push 4, Op.close 0,
    Op.close 1] { nodes := [some 4, some 3], len := 2, state := 1 } (by decide)

/-- C9 counterexample: push one element under `OnThreshold(2)`, close it (this
triggers a compaction advancing the state to 1), then clear; an index created
right after the push carries state 0 and afterwards reports
`ReorganizedCollection` — not `WrongCollection` as the claim demands for every
pre-clear index. -/
theorem clear_invalidity_counterexample :
    run 2 [Op.push 7, Op.close 0, Op.clear] (Col.empty : Col Nat)
        = some { nodes := [], len := 0, state := 1 } ∧
      invalidityReason ⟨0, 0⟩ ({ nodes := [], len := 0, state := 1 } : Col Nat)
        = some NodeIndexError.ReorganizedCollection ∧
      invalidityReason ⟨0, 0⟩ ({ nodes := [], len := 0, state := 1 } : Col Nat)
        ≠ some NodeIndexError.WrongCollection := by
  refine ⟨by decide, by decide, by decide⟩

/-- C9 amended: after `clear()`, every node index whose recorded memory state
equals the collection's current state — in particular every index created since
the last compaction — reports `is_valid_for_collection = false` with reason
`WrongCollection`, because clear empties the node storage while leaving the
memory state unchanged; an index whose recorded state is already stale reports
`ReorganizedCollection` instead, since the state check runs first. -/
theorem clear_invalidates_with_wrong_collection (h : NodeIdx) (c : Col α)
    (hstate : h.state = c.state) :
    isValidFor h (clearCol c) = false ∧
      invalidityReason h (clearCol c) = some NodeIndexError.WrongCollection ∧
      (clearCol c).state = c.state ∧ (clearCol c).nodes = [] := by
  refine ⟨?_, ?_, rfl, rfl⟩
  · have hlen : (clearCol c).nodes.length = 0 := rfl
    rw [isValidFor]
    have : decide (h.addr < (clearCol c).nodes.length) = false := by
      simp [clearCol]
    rw [this, Bool.false_and, Bool.and_false]
  · unfold invalidityReason
    have hs : h.state = (clearCol c).state := hstate
    rw [if_neg (by simp [hs]), if_pos (by simp [clearCol])]

/-- Witness for `clear_invalidates_with_wrong_collection`: an index of matching
state on a cleared one-element collection reports `WrongCollection`. -/
theorem clear_invalidates_witness :
    isValidFor ⟨0, 0⟩ (clearCol ({ nodes := [some 7], len := 1, state := 0 } : Col Nat)) = false ∧
      invalidityReason ⟨0, 0⟩ (clearCol ({ nodes := [some 7], len := 1, state := 0 } : Col Nat))
        = some NodeIndexError.WrongCollection ∧
      (clearCol ({ nodes := [some 7], len := 1, state := 0 } : Col Nat)).state = 0 ∧
      (clearCol ({ nodes := [some 7], len := 1, state := 0 } : Col Nat)).nodes = [] :=
  clear_invalidates_with_wrong_collection ⟨0, 0⟩
    { nodes := [some 7], len := 1, state := 0 } (by decide)

end OrxSelfRefCol
